import Mathlib

/-!
# Verification of the AppStat parameter-scan / quadratic-fit core

Shallow embedding of the algorithmic fragments of the AppStat teaching
notebooks (Week2/LikelihoodFit, Week1/ChiSquareTest, error-propagation
notebook), with theorems settling the specification claims about them.
Machine floats are modelled as real numbers; where IEEE non-finite values
(NaN, +inf) are observable behaviour, a small `FP` value type makes them
explicit.
-/

noncomputable section

namespace AppStat

/-! ## Grid scanner (LikelihoodFit notebook)

`delta_tau = (max_tau-min_tau) / Ntau_steps` and
`tau_hypo = min_tau + itau*delta_tau` follow the notebook verbatim. -/

/-- `delta_tau = (max_tau - min_tau) / Ntau_steps`. -/
def delta_tau (min_tau max_tau : ℝ) (Ntau_steps : ℕ) : ℝ :=
  (max_tau - min_tau) / Ntau_steps

/-- `tau_hypo = min_tau + itau*delta_tau` — the itau-th grid value. -/
def tau_hypo (min_tau max_tau : ℝ) (Ntau_steps : ℕ) (itau : ℕ) : ℝ :=
  min_tau + itau * delta_tau min_tau max_tau Ntau_steps

/-- The score curve: the evaluator applied at each of the `N+1` grid points
(`chi2[itau] = f(tau_hypo)` for `itau = 0..N`); the list-of-applications form
records that the evaluator is applied exactly once per grid point. -/
def scoreCurve (f : ℝ → ℝ) (min_tau max_tau : ℝ) (N : ℕ) : List ℝ :=
  (List.range (N + 1)).map (fun i => f (tau_hypo min_tau max_tau N i))

/-- One iteration of the minimum search:
`if (chi2[itau] < chi2_minval): chi2_minval = chi2[itau]; chi2_minpos = tau_hypo`. -/
def minStep (tau score : ℕ → ℝ) (acc : ℝ × ℝ) (i : ℕ) : ℝ × ℝ :=
  if score i < acc.1 then (score i, tau i) else acc

/-- The minimum-search loop over grid indices `0..N`, started from the
sentinel initialisation `chi2_minval = 999999.9`, `chi2_minpos = 0.0`. -/
def scanMin (tau score : ℕ → ℝ) (N : ℕ) : ℝ × ℝ :=
  (List.range (N + 1)).foldl (minStep tau score) (999999.9, 0.0)

end AppStat

namespace AppStat

/-! ## Goodness-of-fit evaluators (LikelihoodFit notebook) -/

/-- `nexp = Ntimes * (np.exp(-xlow_bin/tau_hypo) - np.exp(-xhigh_bin/tau_hypo))`:
the expected bin content. -/
def nexp (Ntimes : ℕ) (tau_hypo xlow xhigh : ℝ) : ℝ :=
  Ntimes * (Real.exp (-xlow / tau_hypo) - Real.exp (-xhigh / tau_hypo))

/-- One bin's chi-square contribution:
`if (nobs > 0): chi2 += (nobs-nexp)**2 / nobs`, and nothing otherwise. -/
def chi2Term (nobs : ℕ) (nexpVal : ℝ) : ℝ :=
  if 0 < nobs then ((nobs : ℝ) - nexpVal) ^ 2 / nobs else 0

/-- The chi-square evaluator: accumulation of `chi2Term` over all bins,
with `nexp` computed from the bin edges. -/
def chi2Eval (Ntimes : ℕ) (edges : ℕ → ℝ) (counts : ℕ → ℕ) (Nbins : ℕ)
    (tau_hypo : ℝ) : ℝ :=
  ∑ ibin ∈ Finset.range Nbins,
    chi2Term (counts ibin) (nexp Ntimes tau_hypo (edges ibin) (edges (ibin + 1)))

end AppStat

namespace AppStat

/-! ## A value type for observable IEEE non-finite results

`FP.val x` is an ordinary finite value, `FP.inf` is `+inf`, `FP.nan` is NaN.
Only the operations the notebooks perform on possibly-non-finite values are
modelled. -/

inductive FP where
  | val : ℝ → FP
  | inf : FP
  | nan : FP

/-- Float addition restricted to the values that arise here
(`nan` absorbs; `inf + finite = inf + inf = inf`). -/
def FP.add : FP → FP → FP
  | .nan, _ => .nan
  | _, .nan => .nan
  | .inf, _ => .inf
  | _, .inf => .inf
  | .val a, .val b => .val (a + b)

/-- Models `scipy.stats.poisson.pmf(k, mu)`: NaN outside the domain
`mu >= 0`, and `mu^k * exp(-mu) / k!` inside it. -/
def poissonPmf (k : ℕ) (mu : ℝ) : FP :=
  if mu < 0 then .nan else .val (mu ^ k * Real.exp (-mu) / (Nat.factorial k))

/-- One bin's binned-likelihood contribution
`-2.0*np.log(stats.poisson.pmf(int(nobs), nexp))`, with float semantics:
`log` of a NaN pmf is NaN, `-2*log(0) = +inf`, otherwise finite. -/
def bllhTerm (nobs : ℕ) (nexpVal : ℝ) : FP :=
  match poissonPmf nobs nexpVal with
  | .nan => .nan
  | .inf => .nan
  | .val p => if p ≤ 0 then (if p = 0 then .inf else .nan)
              else .val (-2 * Real.log p)

/-- The binned-likelihood evaluator: accumulation of `bllhTerm` over every
bin (no zero-count exclusion), starting from `bllh[itau] = 0.0`. -/
def bllhEval (Ntimes : ℕ) (edges : ℕ → ℝ) (counts : ℕ → ℕ) (Nbins : ℕ)
    (tau_hypo : ℝ) : FP :=
  ((List.range Nbins).map (fun ibin =>
      bllhTerm (counts ibin) (nexp Ntimes tau_hypo (edges ibin) (edges (ibin + 1))))).foldl
    FP.add (.val 0)

/-- Models `np.sqrt` on a real argument: NaN for negative input. -/
def npSqrt (x : ℝ) : FP := if x < 0 then .nan else .val (Real.sqrt x)

/-- Models `1.0 / x` in float semantics: `1/0 = inf`, `1/inf = 0`,
`1/nan = nan`. -/
def fpInvOne : FP → FP
  | .nan => .nan
  | .inf => .val 0
  | .val x => if x = 0 then .inf else .val (1 / x)

/-- `err = 1.0 / np.sqrt(quadratic)` — the analytic uncertainty from the
fitted curvature. -/
def errFromQuadratic (quadratic : ℝ) : FP := fpInvOne (npSqrt quadratic)

end AppStat

namespace AppStat

/-! ## Parabola models (LikelihoodFit notebook) -/

/-- `func_para(x, minval, minpos, quadratic) = minval + quadratic*(x-minpos)**2`. -/
def func_para (x minval minpos quadratic : ℝ) : ℝ :=
  minval + quadratic * (x - minpos) ^ 2

/-- The branch applied to a single entry of `func_asympara`'s input array:
the `quadlow` parabola for `x < minpos`, the `quadhigh` one otherwise. -/
def func_asympara_point (x minval minpos quadlow quadhigh : ℝ) : ℝ :=
  if x < minpos then minval + quadlow * (x - minpos) ^ 2
  else minval + quadhigh * (x - minpos) ^ 2

/-- `func_asympara(X, minval, minpos, quadlow, quadhigh)`: the loop that
appends one branched value per entry of `X`, i.e. a map. -/
def func_asympara (X : List ℝ) (minval minpos quadlow quadhigh : ℝ) : List ℝ :=
  X.map (fun x => func_asympara_point x minval minpos quadlow quadhigh)

end AppStat

namespace AppStat

/-! ## Threshold scan (`ScanChi2` cell of the LikelihoodFit notebook) -/

/-- One loop iteration of the threshold scan: the two sequential `if`
statements updating `(tau_lower?, tau_upper?)` (modelled as the pair of
`found_lower/tau_lower` and `found_upper/tau_upper`). -/
def scanStep (tau chi2 : ℕ → ℝ) (minval : ℝ) (st : Option ℝ × Option ℝ)
    (i : ℕ) : Option ℝ × Option ℝ :=
  let st1 := match st.1 with
    | none => if chi2 i - minval < 1.0 then (some (tau i), st.2) else st
    | some _ => st
  match st1.1, st1.2 with
  | some l, none => if 1.0 < chi2 i - minval then (some l, some (tau i)) else st1
  | _, _ => st1

/-- The scan loop state after the first `m` iterations, starting from
`found_lower = found_upper = False`. -/
def scanFoldSt (tau chi2 : ℕ → ℝ) (minval : ℝ) (m : ℕ) : Option ℝ × Option ℝ :=
  (List.range m).foldl (scanStep tau chi2 minval) (none, none)

/-- The `ScanChi2` cell: guarded by
`(chi2[0] - chi2_minval > 1.0) and (chi2[Ntau_steps] - chi2_minval > 1.0)`,
then the single left-to-right loop over `itau = 0..Ntau_steps`; reports the
pair `(tau_lower, tau_upper)` when both were found, and fails (the error
print) otherwise. -/
def ScanChi2 (tau chi2 : ℕ → ℝ) (N : ℕ) (minval : ℝ) : Option (ℝ × ℝ) :=
  if 1.0 < chi2 0 - minval ∧ 1.0 < chi2 N - minval then
    match scanFoldSt tau chi2 minval (N + 1) with
    | (some l, some u) => some (l, u)
    | _ => none
  else none

end AppStat

namespace AppStat

/-! ## Error-propagation notebook: correlation validation -/

/-- The validation cell:
`if not (-1.0 <= rho12 <= 1.0): raise ValueError(...)`. -/
def validateRho (rho12 : ℝ) : Except String Unit :=
  if -1.0 ≤ rho12 ∧ rho12 ≤ 1.0 then .ok ()
  else .error "Correlation factor not in interval [-1,1]"

/-- The notebook flow: the validation cell runs first; the rest of the
computation only executes when validation passed. -/
def errorPropRun (rho12 : ℝ) (compute : Unit → ℝ) : Except String ℝ :=
  match validateRho rho12 with
  | .error e => .error e
  | .ok _ => .ok (compute ())

end AppStat

namespace AppStat

/-! ## Chi2 minimization animation notebook -/

/-- `linear(x, a) = a*x`. -/
def linear (x a : ℝ) : ℝ := a * x

/-- `calc_chi2(yhat, y, sy) = np.sum((yhat-y)**2 / sy**2)`, element-wise over
the three parallel arrays. -/
def calc_chi2 (yhat y sy : List ℝ) : ℝ :=
  ((yhat.zip (y.zip sy)).map (fun p => (p.1 - p.2.1) ^ 2 / p.2.2 ^ 2)).sum

/-- The two process-wide accumulator lists `p0_list` and `chi2_list`. -/
structure AnimState where
  p0_list : List ℝ
  chi2_list : List ℝ

/-- The chi-square of slope `p0` on the fixed data:
`calc_chi2(linear(x, p0), y, sy)`. -/
def chi2OfP0 (x y sy : List ℝ) (p0 : ℝ) : ℝ :=
  calc_chi2 (x.map (fun xi => linear xi p0)) y sy

/-- One call of `animate_linear_chi2_fit(p0)`: computes `chi2` for the
current guess and appends `p0` and `chi2` to the accumulator lists
(the plotting is out of scope). -/
def animate_linear_chi2_fit (x y sy : List ℝ) (p0 : ℝ) (st : AnimState) :
    AnimState :=
  { p0_list := st.p0_list ++ [p0],
    chi2_list := st.chi2_list ++ [chi2OfP0 x y sy p0] }

/-- A sequence of interactive calls, threaded through the accumulator state. -/
def runAnimation (x y sy : List ℝ) (ps : List ℝ) (st : AnimState) : AnimState :=
  ps.foldl (fun s p => animate_linear_chi2_fit x y sy p s) st

end AppStat

namespace AppStat

/-! ## Example score curves for concrete instantiations -/

/-- Example score curve `[3, 2, 0, 2, 3]` (by index; constant `3` beyond). -/
def exCurveA : ℕ → ℝ := fun i =>
  if i = 0 then 3 else if i = 1 then 2 else if i = 2 then 0
  else if i = 3 then 2 else 3

/-- Example score curve `[3, 0, 2, 3]` (by index; constant `3` beyond):
its minimum sits directly next to a point already outside the 1-unit band. -/
def exCurveB : ℕ → ℝ := fun i =>
  if i = 0 then 3 else if i = 1 then 0 else if i = 2 then 2 else 3

end AppStat

namespace AppStat

/-! ## Theorems -/

/-- C7: for the grid of `N+1` evenly spaced values between `min` and `max`
(`N ≥ 1`), the first grid value equals `min` exactly, the last equals `max`
exactly, and the spacing between consecutive grid values is the constant
`delta_tau` (the embedding uses exact real arithmetic). -/
theorem grid_spacing_and_endpoints (mn mx : ℝ) (N : ℕ) (hN : 1 ≤ N) :
    tau_hypo mn mx N 0 = mn ∧ tau_hypo mn mx N N = mx ∧
    ∀ i : ℕ, tau_hypo mn mx N (i + 1) - tau_hypo mn mx N i = delta_tau mn mx N := by
  have hN0 : (N : ℝ) ≠ 0 := Nat.cast_ne_zero.mpr (by omega)
  refine ⟨by simp [tau_hypo], ?_, ?_⟩
  · unfold tau_hypo delta_tau
    field_simp
  · intro i
    unfold tau_hypo delta_tau
    push_cast
    ring

/-- Witness for C7 at `min = 0`, `max = 1`, `N = 2`. -/
theorem grid_spacing_and_endpoints_witness :
    tau_hypo 0 1 2 0 = 0 ∧ tau_hypo 0 1 2 2 = 1 ∧
    ∀ i : ℕ, tau_hypo 0 1 2 (i + 1) - tau_hypo 0 1 2 i = delta_tau 0 1 2 :=
  grid_spacing_and_endpoints 0 1 2 (by norm_num)

/-- C8: the asymmetric parabola uses the `quadlow` branch for `x < minpos`
and the `quadhigh` branch for `x ≥ minpos`; it is continuous at `minpos`
(both branch parabolas evaluate to `minval` there, as does the function);
with `quadlow = quadhigh` it agrees with the symmetric parabola everywhere;
and the array version maps the pointwise branch over its input. -/
theorem asympara_branches (x minval minpos quadlow quadhigh : ℝ) :
    (x < minpos → func_asympara_point x minval minpos quadlow quadhigh
        = minval + quadlow * (x - minpos) ^ 2) ∧
    (minpos ≤ x → func_asympara_point x minval minpos quadlow quadhigh
        = minval + quadhigh * (x - minpos) ^ 2) ∧
    func_asympara_point minpos minval minpos quadlow quadhigh = minval ∧
    func_para minpos minval minpos quadlow = minval ∧
    func_para minpos minval minpos quadhigh = minval ∧
    (∀ y quad : ℝ, func_asympara_point y minval minpos quad quad
        = func_para y minval minpos quad) ∧
    func_asympara [x] minval minpos quadlow quadhigh
      = [func_asympara_point x minval minpos quadlow quadhigh] := by
  refine ⟨fun h => by rw [func_asympara_point, if_pos h],
          fun h => by rw [func_asympara_point, if_neg (not_lt.mpr h)],
          ?_, by simp [func_para], by simp [func_para], ?_, by simp [func_asympara]⟩
  · simp [func_asympara_point]
  · intro y quad
    by_cases h : y < minpos <;> simp [func_asympara_point, func_para, h]

/-- Witness for C8: both branch hypotheses discharged at concrete inputs. -/
theorem asympara_branches_witness :
    func_asympara_point 0 5 1 2 3 = 5 + 2 * ((0 : ℝ) - 1) ^ 2 ∧
    func_asympara_point 2 5 1 2 3 = 5 + 3 * ((2 : ℝ) - 1) ^ 2 :=
  ⟨(asympara_branches 0 5 1 2 3).1 (by norm_num),
   (asympara_branches 2 5 1 2 3).2.1 (by norm_num)⟩

/-- C9: a correlation inside `[-1, 1]` passes validation and the rest of the
computation runs; a correlation outside `[-1, 1]` makes the validation cell
raise (`ValueError`) before any further computation executes — the outcome is
the error for every possible continuation `compute`. -/
theorem rho_validation (rho : ℝ) :
    ((-1.0 ≤ rho ∧ rho ≤ 1.0) → validateRho rho = Except.ok () ∧
        ∀ compute : Unit → ℝ, errorPropRun rho compute = Except.ok (compute ())) ∧
    (¬(-1.0 ≤ rho ∧ rho ≤ 1.0) →
        validateRho rho = Except.error "Correlation factor not in interval [-1,1]" ∧
        ∀ compute : Unit → ℝ, errorPropRun rho compute
          = Except.error "Correlation factor not in interval [-1,1]") := by
  constructor
  · intro h
    have hv : validateRho rho = Except.ok () := by rw [validateRho, if_pos h]
    exact ⟨hv, fun compute => by rw [errorPropRun, hv]⟩
  · intro h
    have hv : validateRho rho
        = Except.error "Correlation factor not in interval [-1,1]" := by
      rw [validateRho, if_neg h]
    exact ⟨hv, fun compute => by rw [errorPropRun, hv]⟩

/-- Witness for C9: `rho = 1.5` fails validation for every continuation;
`rho = 0.5` passes. -/
theorem rho_validation_witness :
    errorPropRun 1.5 (fun _ => 0)
      = Except.error "Correlation factor not in interval [-1,1]" ∧
    errorPropRun 0.5 (fun _ => 0) = Except.ok 0 :=
  ⟨((rho_validation 1.5).2 (by norm_num)).2 (fun _ => 0),
   ((rho_validation 0.5).1 (by norm_num)).2 (fun _ => 0)⟩

/-- Each animation call appends its `p0` and the corresponding chi-square to
the accumulator lists; a run is the left fold of such calls. -/
theorem runAnimation_from (x y sy : List ℝ) (ps : List ℝ) :
    ∀ st : AnimState, runAnimation x y sy ps st
      = ⟨st.p0_list ++ ps, st.chi2_list ++ ps.map (chi2OfP0 x y sy)⟩ := by
  induction ps with
  | nil => intro st; simp [runAnimation]
  | cons p ps ih =>
      intro st
      have hstep : runAnimation x y sy (p :: ps) st
          = runAnimation x y sy ps (animate_linear_chi2_fit x y sy p st) := rfl
      rw [hstep, ih]
      simp [animate_linear_chi2_fit]

/-- C10: starting from empty accumulator lists, a sequence of calls to the
animation function leaves `p0_list` equal to the sequence of inputs and
`chi2_list` equal to its image under the chi-square of the fixed data; in
particular the lists have equal length and the `i`-th chi-square entry is the
chi-square of the `i`-th parameter entry; and each single call appends
exactly one element to each list. -/
theorem animation_accumulators (x y sy ps : List ℝ) :
    (runAnimation x y sy ps ⟨[], []⟩).p0_list = ps ∧
    (runAnimation x y sy ps ⟨[], []⟩).chi2_list = ps.map (chi2OfP0 x y sy) ∧
    (runAnimation x y sy ps ⟨[], []⟩).p0_list.length
      = (runAnimation x y sy ps ⟨[], []⟩).chi2_list.length ∧
    (∀ i : ℕ, (runAnimation x y sy ps ⟨[], []⟩).chi2_list[i]?
      = ((runAnimation x y sy ps ⟨[], []⟩).p0_list[i]?).map (chi2OfP0 x y sy)) ∧
    ∀ (st : AnimState) (p : ℝ), animate_linear_chi2_fit x y sy p st
      = ⟨st.p0_list ++ [p], st.chi2_list ++ [chi2OfP0 x y sy p]⟩ := by
  have h := runAnimation_from x y sy ps ⟨[], []⟩
  simp only [h]
  refine ⟨by simp, by simp, by simp, ?_, fun st p => rfl⟩
  intro i
  simp [List.getElem?_map]

/-- C5 (amended): `err = 1.0/np.sqrt(quadratic)` equals `1/sqrt(quadratic)`
for positive curvature; for negative curvature the expression evaluates to
NaN and for zero curvature to `+inf` — there is no explicit failure
condition in the code. -/
theorem err_from_curvature (q : ℝ) :
    (0 < q → errFromQuadratic q = FP.val (1 / Real.sqrt q)) ∧
    (q < 0 → errFromQuadratic q = FP.nan) ∧
    errFromQuadratic 0 = FP.inf := by
  refine ⟨?_, ?_, ?_⟩
  · intro h
    have h1 : ¬(q < 0) := not_lt.mpr h.le
    have h2 : Real.sqrt q ≠ 0 := ne_of_gt (Real.sqrt_pos.mpr h)
    simp [errFromQuadratic, npSqrt, fpInvOne, h1, h2]
  · intro h
    simp [errFromQuadratic, npSqrt, fpInvOne, h]
  · simp [errFromQuadratic, npSqrt, fpInvOne]

/-- Counterexample for C5 as stated: at `quadratic = -1` the code returns
the NaN value (there is no "undefined uncertainty" failure condition),
contradicting "rather than returning a complex, negative, or NaN value". -/
theorem err_from_curvature_counterexample : errFromQuadratic (-1) = FP.nan := by
  norm_num [errFromQuadratic, npSqrt, fpInvOne]

/-- Witness for C5's amended theorem at `quadratic = 4` and `-2`. -/
theorem err_from_curvature_witness :
    errFromQuadratic 4 = FP.val (1 / Real.sqrt 4) ∧ errFromQuadratic (-2) = FP.nan :=
  ⟨(err_from_curvature 4).1 (by norm_num), (err_from_curvature (-2)).2.1 (by norm_num)⟩

/-- C3: the chi-square evaluator is the sum over the bins with `nobs > 0` of
`(nobs - nexp)^2 / nobs`; a bin with `nobs = 0` contributes nothing; a bin
with `nobs = nexp` exactly contributes `0`; and `nexp` is the total event
count times the closed-form integral of the assumed exponential density over
the bin edges. -/
theorem chi2_evaluator (Ntimes : ℕ) (edges : ℕ → ℝ) (counts : ℕ → ℕ)
    (Nbins : ℕ) (tau : ℝ) (htau : tau ≠ 0) :
    chi2Eval Ntimes edges counts Nbins tau
      = ∑ ibin ∈ (Finset.range Nbins).filter (fun b => 0 < counts b),
          ((counts ibin : ℝ) - nexp Ntimes tau (edges ibin) (edges (ibin + 1))) ^ 2
            / counts ibin ∧
    (∀ nexpVal : ℝ, chi2Term 0 nexpVal = 0) ∧
    (∀ nobs : ℕ, chi2Term nobs (nobs : ℝ) = 0) ∧
    ∀ a b : ℝ, nexp Ntimes tau a b
      = Ntimes * ∫ t in a..b, (1 / tau) * Real.exp (-t / tau) := by
  refine ⟨?_, fun v => by simp [chi2Term], ?_, ?_⟩
  · rw [Finset.sum_filter]
    refine Finset.sum_congr rfl fun b _ => ?_
    rw [chi2Term]
  · intro nobs
    rcases Nat.eq_zero_or_pos nobs with h | h
    · simp [chi2Term, h]
    · simp [chi2Term, h]
  · intro a b
    have key : ∫ t in a..b, (1 / tau) * Real.exp (-t / tau)
        = Real.exp (-a / tau) - Real.exp (-b / tau) := by
      have hderiv : ∀ t ∈ Set.uIcc a b,
          HasDerivAt (fun u : ℝ => -Real.exp (-u / tau))
            ((1 / tau) * Real.exp (-t / tau)) t := by
        intro t _
        have h1 : HasDerivAt (fun u : ℝ => -u / tau) (-1 / tau) t :=
          (hasDerivAt_id t).neg.div_const tau
        have h2 : HasDerivAt (fun u : ℝ => Real.exp (-u / tau))
            (Real.exp (-t / tau) * (-1 / tau)) t := h1.exp
        have h3 := h2.neg
        convert h3 using 1
        ring
      have hint : IntervalIntegrable (fun t : ℝ => (1 / tau) * Real.exp (-t / tau))
          MeasureTheory.volume a b := by
        apply Continuous.intervalIntegrable
        continuity
      rw [intervalIntegral.integral_eq_sub_of_hasDerivAt hderiv hint]
      ring
    rw [nexp, key]

/-- Witness for C3 at `tau = 1`: the diagonal-bin conjunct instantiated. -/
theorem chi2_evaluator_witness : chi2Term 2 ((2 : ℕ) : ℝ) = 0 :=
  (chi2_evaluator 1 (fun i => (i : ℝ)) (fun _ => 1) 1 1 (by norm_num)).2.2.1 2

/-! ### Minimum-search loop: full characterisation -/

/-- Unfolding one step of the minimum-search loop. -/
theorem scanMin_succ (tau score : ℕ → ℝ) (n : ℕ) :
    scanMin tau score (n + 1) = minStep tau score (scanMin tau score n) (n + 1) := by
  rw [scanMin, scanMin, List.range_succ, List.foldl_append]
  rfl

/-- Invariant of the minimum-search loop after the grid indices `0..N`:
the running value never exceeds the sentinel, and either nothing beat the
sentinel (state unchanged, every score at least the sentinel) or the state
records the minimum score together with the grid value at its first
occurrence (all strictly earlier scores are strictly larger). -/
theorem scanMin_invariant (tau score : ℕ → ℝ) (N : ℕ) :
    (scanMin tau score N).1 ≤ 999999.9 ∧
    ((scanMin tau score N = (999999.9, 0.0) ∧
        ∀ i ≤ N, 999999.9 ≤ score i) ∨
      ((∀ i ≤ N, (scanMin tau score N).1 ≤ score i) ∧
        ∃ j, j ≤ N ∧ score j = (scanMin tau score N).1 ∧
          (scanMin tau score N).2 = tau j ∧
          ∀ k < j, (scanMin tau score N).1 < score k)) := by
  induction N with
  | zero =>
      have h0 : scanMin tau score 0 = minStep tau score (999999.9, 0.0) 0 := rfl
      rw [h0, minStep]
      by_cases h : score 0 < 999999.9
      · rw [if_pos h]
        refine ⟨h.le, Or.inr ⟨?_, 0, le_refl 0, rfl, rfl,
          fun k hk => absurd hk (Nat.not_lt_zero k)⟩⟩
        intro i hi
        interval_cases i
        exact le_refl _
      · rw [if_neg h]
        exact ⟨le_refl _, Or.inl ⟨rfl, fun i hi => by
          interval_cases i
          exact not_lt.mp h⟩⟩
  | succ n ih =>
      obtain ⟨hle, hcase⟩ := ih
      rw [scanMin_succ, minStep]
      by_cases h : score (n + 1) < (scanMin tau score n).1
      · rw [if_pos h]
        refine ⟨le_trans h.le hle, Or.inr ⟨?_, n + 1, le_refl _, rfl, rfl, ?_⟩⟩
        · intro i hi
          rcases Nat.lt_succ_iff_lt_or_eq.mp (Nat.lt_succ_of_le hi) with h1 | h1
          · have hi' : i ≤ n := Nat.lt_succ_iff.mp h1
            rcases hcase with ⟨heq, hall⟩ | ⟨hmin, _⟩
            · have : (scanMin tau score n).1 = 999999.9 := by rw [heq]
              calc score (n + 1) ≤ 999999.9 := by
                    exact le_trans h.le (le_of_eq this)
                _ ≤ score i := hall i hi'
            · exact le_trans h.le (hmin i hi')
          · exact le_of_eq (by rw [h1])
        · intro k hk
          have hk' : k ≤ n := Nat.lt_succ_iff.mp hk
          rcases hcase with ⟨heq, hall⟩ | ⟨hmin, _⟩
          · have : (scanMin tau score n).1 = 999999.9 := by rw [heq]
            calc score (n + 1) < 999999.9 := this ▸ h
              _ ≤ score k := hall k hk'
          · exact lt_of_lt_of_le h (hmin k hk')
      · rw [if_neg h]
        refine ⟨hle, ?_⟩
        rcases hcase with ⟨heq, hall⟩ | ⟨hmin, j, hj, hsc, hpos, hfirst⟩
        · refine Or.inl ⟨heq, fun i hi => ?_⟩
          rcases Nat.lt_succ_iff_lt_or_eq.mp (Nat.lt_succ_of_le hi) with h1 | h1
          · exact hall i (Nat.lt_succ_iff.mp h1)
          · subst h1
            have : (scanMin tau score n).1 = 999999.9 := by rw [heq]
            exact this ▸ not_lt.mp h
        · refine Or.inr ⟨fun i hi => ?_, j, Nat.le_succ_of_le hj, hsc, hpos, hfirst⟩
          rcases Nat.lt_succ_iff_lt_or_eq.mp (Nat.lt_succ_of_le hi) with h1 | h1
          · exact hmin i (Nat.lt_succ_iff.mp h1)
          · subst h1
            exact not_lt.mp h

/-- C6 (amended): for bounds `[mn, mx]`, step count `N ≥ 1` and evaluator
`f`, the score curve has length `N+1`, its `i`-th entry is the evaluator
applied once at `mn + i*(mx-mn)/N`, and — provided at least one score beats
the sentinel initialisation `999999.9` — the minimum search returns the
minimum score paired with the grid value of its first occurrence. -/
theorem grid_scanner (f : ℝ → ℝ) (mn mx : ℝ) (N : ℕ) (hN : 1 ≤ N)
    (hsent : ∃ i, i ≤ N ∧ f (tau_hypo mn mx N i) < 999999.9) :
    (scoreCurve f mn mx N).length = N + 1 ∧
    (∀ i, i ≤ N → (scoreCurve f mn mx N)[i]?
        = some (f (mn + i * ((mx - mn) / N)))) ∧
    (∀ i, i ≤ N →
      (scanMin (tau_hypo mn mx N) (fun j => f (tau_hypo mn mx N j)) N).1
        ≤ f (tau_hypo mn mx N i)) ∧
    ∃ j, j ≤ N ∧
      f (tau_hypo mn mx N j)
        = (scanMin (tau_hypo mn mx N) (fun j => f (tau_hypo mn mx N j)) N).1 ∧
      (scanMin (tau_hypo mn mx N) (fun j => f (tau_hypo mn mx N j)) N).2
        = tau_hypo mn mx N j ∧
      ∀ k, k < j →
        (scanMin (tau_hypo mn mx N) (fun j => f (tau_hypo mn mx N j)) N).1
          < f (tau_hypo mn mx N k) := by
  obtain ⟨hle, hcase⟩ :=
    scanMin_invariant (tau_hypo mn mx N) (fun j => f (tau_hypo mn mx N j)) N
  rcases hcase with ⟨heq, hall⟩ | ⟨hmin, j, hj, hsc, hpos, hfirst⟩
  · obtain ⟨i, hiN, hi⟩ := hsent
    exact absurd (hall i hiN) (not_le.mpr hi)
  · refine ⟨by simp [scoreCurve], ?_, hmin, j, hj, hsc, hpos, hfirst⟩
    intro i hiN
    have hilt : i < N + 1 := Nat.lt_succ_of_le hiN
    simp [scoreCurve, List.getElem?_map, List.getElem?_range, hilt,
      tau_hypo, delta_tau]

/-- Counterexample for C6 as stated: with every score equal to `10^6`
(which exceeds the sentinel `999999.9`), the loop returns the untouched
initialisation `(999999.9, 0.0)` — neither the minimum score of the curve
nor any grid hypothesis value (the first grid point is `0.5`). -/
theorem grid_scanner_counterexample :
    scanMin (tau_hypo 0.5 1.5 1) (fun _ => 1000000) 1 = (999999.9, 0.0) ∧
    (999999.9 : ℝ) ≠ 1000000 ∧
    tau_hypo 0.5 1.5 1 0 = 0.5 ∧ (0.0 : ℝ) ≠ 0.5 := by
  refine ⟨?_, by norm_num, by norm_num [tau_hypo, delta_tau], by norm_num⟩
  have h1 : ¬((1000000 : ℝ) < 999999.9) := by norm_num
  rw [scanMin]
  simp [List.range_succ, minStep, h1]

/-- Witness for C6 (length conjunct at `f = id`, `[0,1]`, `N = 1`). -/
theorem grid_scanner_witness : (scoreCurve (fun x => x) 0 1 1).length = 1 + 1 :=
  (grid_scanner (fun x => x) 0 1 1 (le_refl 1)
    ⟨0, Nat.zero_le 1, by norm_num [tau_hypo, delta_tau]⟩).1

/-! ### Threshold scan: step lemmas and phase characterisation -/

/-- Unfolding one step of the threshold-scan loop. -/
theorem scanFold_succ (tau chi2 : ℕ → ℝ) (minval : ℝ) (n : ℕ) :
    scanFoldSt tau chi2 minval (n + 1)
      = scanStep tau chi2 minval (scanFoldSt tau chi2 minval n) n := by
  rw [scanFoldSt, scanFoldSt, List.range_succ, List.foldl_append]
  rfl

/-- Resolved behaviour of one scan iteration before either crossing is
found: the second `if` cannot fire in the iteration that just set
`found_lower`, because `chi2 i - minval < 1.0` and `1.0 < chi2 i - minval`
exclude each other. -/
theorem scanStep_nn (tau chi2 : ℕ → ℝ) (minval : ℝ) (i : ℕ) :
    scanStep tau chi2 minval (none, none) i
      = if chi2 i - minval < 1.0 then (some (tau i), none) else (none, none) := by
  by_cases hc : chi2 i - minval < 1.0
  · have hc2 : ¬(1.0 < chi2 i - minval) := by linarith
    simp only [scanStep, if_pos hc, if_neg hc2]
  · simp only [scanStep, if_neg hc]

/-- One scan iteration with only the lower crossing found. -/
theorem scanStep_sn (tau chi2 : ℕ → ℝ) (minval : ℝ) (i : ℕ) (l : ℝ) :
    scanStep tau chi2 minval (some l, none) i
      = if 1.0 < chi2 i - minval then (some l, some (tau i)) else (some l, none) :=
  rfl

/-- One scan iteration after both crossings were found: a no-op. -/
theorem scanStep_ss (tau chi2 : ℕ → ℝ) (minval : ℝ) (i : ℕ) (l u : ℝ) :
    scanStep tau chi2 minval (some l, some u) i = (some l, some u) :=
  rfl

/-- Phase 1: while every score seen so far is at least `minval + 1`,
neither crossing has been found. -/
theorem scanFold_no_lower (tau chi2 : ℕ → ℝ) (minval : ℝ) (m : ℕ)
    (h : ∀ i, i < m → ¬(chi2 i - minval < 1.0)) :
    scanFoldSt tau chi2 minval m = (none, none) := by
  induction m with
  | zero => rfl
  | succ n ih =>
      rw [scanFold_succ, ih (fun i hi => h i (Nat.lt_succ_of_lt hi)),
        scanStep_nn, if_neg (h n (Nat.lt_succ_self n))]

/-- Phase 2: once the first below-threshold point `i0` has been passed and
no later point so far exceeded the threshold, the state holds
`tau_lower = tau i0` and no upper crossing. -/
theorem scanFold_lower_only (tau chi2 : ℕ → ℝ) (minval : ℝ) (m i0 : ℕ)
    (hi0 : i0 < m)
    (h0 : chi2 i0 - minval < 1.0)
    (hleast : ∀ k, k < i0 → ¬(chi2 k - minval < 1.0))
    (hnoup : ∀ k, i0 < k → k < m → ¬(1.0 < chi2 k - minval)) :
    scanFoldSt tau chi2 minval m = (some (tau i0), none) := by
  induction m with
  | zero => omega
  | succ n ih =>
      rw [scanFold_succ]
      rcases Nat.lt_succ_iff_lt_or_eq.mp hi0 with hlt | heq
      · rw [ih hlt (fun k hk1 hk2 => hnoup k hk1 (Nat.lt_succ_of_lt hk2)),
          scanStep_sn, if_neg (hnoup n hlt (Nat.lt_succ_self n))]
      · subst heq
        rw [scanFold_no_lower tau chi2 minval i0 hleast,
          scanStep_nn, if_pos h0]

/-- Phase 3: after the first above-threshold point `i1` past `i0`, the
state holds both `tau_lower = tau i0` and `tau_upper = tau i1`. -/
theorem scanFold_both (tau chi2 : ℕ → ℝ) (minval : ℝ) (m i0 i1 : ℕ)
    (h01 : i0 < i1) (hi1 : i1 < m)
    (h0 : chi2 i0 - minval < 1.0)
    (hleast : ∀ k, k < i0 → ¬(chi2 k - minval < 1.0))
    (h1 : 1.0 < chi2 i1 - minval)
    (h1least : ∀ k, i0 < k → k < i1 → ¬(1.0 < chi2 k - minval)) :
    scanFoldSt tau chi2 minval m = (some (tau i0), some (tau i1)) := by
  induction m with
  | zero => omega
  | succ n ih =>
      rw [scanFold_succ]
      rcases Nat.lt_succ_iff_lt_or_eq.mp hi1 with hlt | heq
      · rw [ih hlt, scanStep_ss]
      · subst heq
        rw [scanFold_lower_only tau chi2 minval i1 i0 h01 h0 hleast h1least,
          scanStep_sn, if_pos h1]

/-- C1 (amended): the threshold scan is a single left-to-right pass over the
full score curve. Under the guard (both boundary scores exceed
`minval + 1`), the reported lower value is the grid value at the first index
`i0` whose score lies below `minval + 1`, the reported upper value is the
grid value at the first later index `i1` whose score exceeds `minval + 1`,
and `i0` is at most any index `jm` attaining the minimum (so the reported
lower value sits at or before the minimum position, not necessarily strictly
before it). -/
theorem threshold_scan (tau chi2 : ℕ → ℝ) (N : ℕ) (minval : ℝ)
    (i0 i1 jm : ℕ) (hi1N : i1 ≤ N)
    (h0 : chi2 i0 - minval < 1.0)
    (hleast : ∀ k, k < i0 → ¬(chi2 k - minval < 1.0))
    (h01 : i0 < i1) (h1 : 1.0 < chi2 i1 - minval)
    (h1least : ∀ k, i0 < k → k < i1 → ¬(1.0 < chi2 k - minval))
    (hjm : jm ≤ N ∧ chi2 jm = minval)
    (hguard : 1.0 < chi2 0 - minval ∧ 1.0 < chi2 N - minval) :
    ScanChi2 tau chi2 N minval = some (tau i0, tau i1) ∧ i0 ≤ jm := by
  have hfold := scanFold_both tau chi2 minval (N + 1) i0 i1 h01
    (Nat.lt_succ_of_le hi1N) h0 hleast h1 h1least
  constructor
  · rw [ScanChi2, if_pos hguard, hfold]
  · by_contra hc
    push_neg at hc
    exact hleast jm hc (by rw [hjm.2, sub_self]; norm_num)

/-- Counterexample for C1 as stated, on the curve `[3, 0, 2, 3]` over the
grid `0, 1, 2, 3` with minimum score `0` at grid value `1`: the code reports
`(1, 2)`, so the reported lower crossing equals the minimum position
(`¬(1 < 1)`: the pair does not bracket it), and it is not the first point in
the downward direction whose score exceeds `minscore + 1` (that would be the
boundary value `0`). -/
theorem threshold_scan_counterexample :
    ScanChi2 (fun i => (i : ℝ)) exCurveB 3 0 = some (1, 2) ∧
    exCurveB 0 = 3 ∧ exCurveB 1 = 0 ∧ exCurveB 2 = 2 ∧ exCurveB 3 = 3 ∧
    ¬((1 : ℝ) < 1) := by
  have hfold := scanFold_both (fun i => (i : ℝ)) exCurveB 0 4 1 2
    (by norm_num) (by norm_num)
    (by norm_num [exCurveB])
    (by intro k hk; interval_cases k; norm_num [exCurveB])
    (by norm_num [exCurveB])
    (by intro k h1 h2; omega)
  refine ⟨?_, by norm_num [exCurveB], by norm_num [exCurveB],
    by norm_num [exCurveB], by norm_num [exCurveB], by norm_num⟩
  rw [ScanChi2, if_pos (by norm_num [exCurveB]), hfold]
  norm_num

/-- Witness for C1's amended theorem on the curve `[3, 2, 0, 2, 3]`. -/
theorem threshold_scan_witness :
    ScanChi2 (fun i => (i : ℝ)) exCurveA 4 0 = some (2, 3) ∧ (2 : ℕ) ≤ 2 := by
  have h := threshold_scan (fun i => (i : ℝ)) exCurveA 4 0 2 3 2
    (by norm_num)
    (by norm_num [exCurveA])
    (by intro k hk; interval_cases k <;> norm_num [exCurveA])
    (by norm_num)
    (by norm_num [exCurveA])
    (by intro k h1 h2; omega)
    (by norm_num [exCurveA])
    (by norm_num [exCurveA])
  simpa using h

/-- Under the guard, with `minval` attained somewhere on the grid, the scan
finds both crossings, at grid indices. -/
theorem scanChi2_of_guard (tau chi2 : ℕ → ℝ) (N : ℕ) (minval : ℝ)
    (hmin : ∃ j, j ≤ N ∧ chi2 j = minval)
    (hg : 1.0 < chi2 0 - minval ∧ 1.0 < chi2 N - minval) :
    ∃ i0 i1 : ℕ, i0 < i1 ∧ i1 ≤ N ∧
      ScanChi2 tau chi2 N minval = some (tau i0, tau i1) := by
  classical
  obtain ⟨j, hjN, hj⟩ := hmin
  have hex : ∃ i, chi2 i - minval < 1.0 := ⟨j, by rw [hj, sub_self]; norm_num⟩
  set i0 := Nat.find hex with hi0def
  have h0 : chi2 i0 - minval < 1.0 := Nat.find_spec hex
  have hleast : ∀ k, k < i0 → ¬(chi2 k - minval < 1.0) :=
    fun k hk => Nat.find_min hex hk
  have hi0j : i0 ≤ j := Nat.find_min' hex (by rw [hj, sub_self]; norm_num)
  have hi0N : i0 < N := by
    rcases Nat.lt_or_ge i0 N with h | h
    · exact h
    · exfalso
      have : i0 = N := le_antisymm (le_trans hi0j hjN) h
      rw [this] at h0
      linarith [hg.2]
  have hexQ : ∃ k, i0 < k ∧ 1.0 < chi2 k - minval := ⟨N, hi0N, hg.2⟩
  set i1 := Nat.find hexQ with hi1def
  have hQ : i0 < i1 ∧ 1.0 < chi2 i1 - minval := Nat.find_spec hexQ
  have h1least : ∀ k, i0 < k → k < i1 → ¬(1.0 < chi2 k - minval) :=
    fun k hk1 hk2 h => Nat.find_min hexQ hk2 ⟨hk1, h⟩
  have hi1N : i1 ≤ N := Nat.find_min' hexQ ⟨hi0N, hg.2⟩
  refine ⟨i0, i1, hQ.1, hi1N, ?_⟩
  have hfold := scanFold_both tau chi2 minval (N + 1) i0 i1 hQ.1
    (Nat.lt_succ_of_le hi1N) h0 hleast hQ.2 h1least
  rw [ScanChi2, if_pos hg, hfold]

/-- C2: given that `minval` is attained on the grid, the threshold scan
reports a pair of crossing values exactly when both boundary scores exceed
`minval + 1`; otherwise it takes the explicit failure branch; and any
reported values are grid hypothesis values (no extrapolation beyond the
computed grid). -/
theorem threshold_scan_guard (tau chi2 : ℕ → ℝ) (N : ℕ) (minval : ℝ)
    (hmin : ∃ j, j ≤ N ∧ chi2 j = minval) :
    ((1.0 < chi2 0 - minval ∧ 1.0 < chi2 N - minval) →
        (ScanChi2 tau chi2 N minval).isSome = true) ∧
    (¬(1.0 < chi2 0 - minval ∧ 1.0 < chi2 N - minval) →
        ScanChi2 tau chi2 N minval = none) ∧
    ∀ l u, ScanChi2 tau chi2 N minval = some (l, u) →
      (∃ i, i ≤ N ∧ l = tau i) ∧ ∃ i, i ≤ N ∧ u = tau i := by
  refine ⟨?_, ?_, ?_⟩
  · intro hg
    obtain ⟨i0, i1, _, _, heq⟩ := scanChi2_of_guard tau chi2 N minval hmin hg
    rw [heq]
    rfl
  · intro hg
    rw [ScanChi2, if_neg hg]
  · intro l u h
    by_cases hg : 1.0 < chi2 0 - minval ∧ 1.0 < chi2 N - minval
    · obtain ⟨i0, i1, h01, hi1N, heq⟩ :=
        scanChi2_of_guard tau chi2 N minval hmin hg
      rw [heq] at h
      obtain ⟨hl, hu⟩ := Prod.mk.injEq .. ▸ Option.some.injEq .. ▸ h
      exact ⟨⟨i0, le_of_lt (lt_of_lt_of_le h01 hi1N), hl.symm⟩,
        ⟨i1, hi1N, hu.symm⟩⟩
    · rw [ScanChi2, if_neg hg] at h
      exact absurd h (by simp)

/-- Witness for C2 on the curve `[3, 2, 0, 2, 3]`: the guard holds and the
scan reports a pair. -/
theorem threshold_scan_guard_witness :
    (ScanChi2 (fun i => (i : ℝ)) exCurveA 4 0).isSome = true :=
  (threshold_scan_guard (fun i => (i : ℝ)) exCurveA 4 0
    ⟨2, by norm_num, by norm_num [exCurveA]⟩).1 (by norm_num [exCurveA])

/-! ### Float-value accumulation lemmas -/

/-- NaN absorbs on the right. -/
theorem FP.add_nan (x : FP) : x.add .nan = .nan := by cases x <;> rfl

/-- Adding two non-NaN values never yields NaN. -/
theorem FP.add_ne_nan (x y : FP) (hx : x ≠ .nan) (hy : y ≠ .nan) :
    x.add y ≠ .nan := by
  cases x <;> cases y <;> simp_all [FP.add]

/-- A fold that has reached NaN stays NaN. -/
theorem FP.foldl_add_from_nan (l : List FP) : l.foldl FP.add .nan = .nan := by
  induction l with
  | nil => rfl
  | cons a l ih =>
      rw [List.foldl_cons, show FP.add .nan a = .nan from by cases a <;> rfl]
      exact ih

/-- If any accumulated term is NaN, the total is NaN. -/
theorem FP.foldl_add_nan_mem (l : List FP) (init : FP) (h : FP.nan ∈ l) :
    l.foldl FP.add init = .nan := by
  induction l generalizing init with
  | nil => cases h
  | cons a l ih =>
      rcases List.mem_cons.mp h with rfl | h'
      · rw [List.foldl_cons, FP.add_nan]
        exact FP.foldl_add_from_nan l
      · exact ih (init.add a) h'

/-- A fold that has reached `+inf` stays `+inf` while no NaN appears. -/
theorem FP.foldl_add_from_inf (l : List FP) (h : FP.nan ∉ l) :
    l.foldl FP.add .inf = .inf := by
  induction l with
  | nil => rfl
  | cons a l ih =>
      have ha : a ≠ .nan := fun hh => h (hh ▸ List.mem_cons_self a l)
      have hstep : FP.inf.add a = .inf := by
        cases a <;> simp_all [FP.add]
      rw [List.foldl_cons, hstep]
      exact ih (fun hh => h (List.mem_cons_of_mem a hh))

/-- If some accumulated term is `+inf` and no term (nor the start value) is
NaN, the total is `+inf`. -/
theorem FP.foldl_add_inf_mem (l : List FP) (init : FP) (hnan : FP.nan ∉ l)
    (hinit : init ≠ .nan) (h : FP.inf ∈ l) :
    l.foldl FP.add init = .inf := by
  induction l generalizing init with
  | nil => cases h
  | cons a l ih =>
      have ha : a ≠ .nan := fun hh => hnan (hh ▸ List.mem_cons_self a l)
      have hnan' : FP.nan ∉ l := fun hh => hnan (List.mem_cons_of_mem a hh)
      rcases List.mem_cons.mp h with rfl | h'
      · have hstep : init.add .inf = .inf := by
          cases init <;> simp_all [FP.add]
        rw [List.foldl_cons, hstep]
        exact FP.foldl_add_from_inf l hnan'
      · exact ih (init.add a) hnan' (FP.add_ne_nan init a hinit ha) h'

/-- Accumulating finite values only is ordinary real summation. -/
theorem FP.foldl_add_map_val (g : ℕ → ℝ) (bs : List ℕ) (r : ℝ) :
    (bs.map (fun b => FP.val (g b))).foldl FP.add (.val r)
      = .val (r + (bs.map g).sum) := by
  induction bs generalizing r with
  | nil => simp
  | cons b bs ih =>
      simp only [List.map_cons, List.foldl_cons, List.sum_cons]
      rw [show FP.add (.val r) (.val (g b)) = .val (r + g b) from rfl, ih,
        add_assoc]

/-- C4 (amended): the binned-likelihood evaluator accumulates
`-2*log(Poisson_pmf(nobs, nexp))` over every bin with no zero-count
exclusion; when every `nexp` is positive the score is the finite sum of
those terms; a negative `nexp` in some bin makes the score NaN; `nexp = 0`
in a bin with `nobs > 0` (and no negative `nexp`) makes the score `+inf`;
but a bin with `nexp = 0` and `nobs = 0` contributes the finite value `0`
(`pmf(0,0) = 1`), so `nexp ≤ 0` alone does not force an invalid score. -/
theorem bllh_evaluator (Ntimes : ℕ) (edges : ℕ → ℝ) (counts : ℕ → ℕ)
    (Nbins : ℕ) (tau : ℝ) :
    ((∀ b, b < Nbins → 0 < nexp Ntimes tau (edges b) (edges (b + 1))) →
        bllhEval Ntimes edges counts Nbins tau
          = FP.val (((List.range Nbins).map (fun b =>
              -2 * Real.log (nexp Ntimes tau (edges b) (edges (b + 1)) ^ counts b
                * Real.exp (-nexp Ntimes tau (edges b) (edges (b + 1)))
                / Nat.factorial (counts b)))).sum)) ∧
    ((∃ b, b < Nbins ∧ nexp Ntimes tau (edges b) (edges (b + 1)) < 0) →
        bllhEval Ntimes edges counts Nbins tau = FP.nan) ∧
    ((∀ b, b < Nbins → 0 ≤ nexp Ntimes tau (edges b) (edges (b + 1))) →
      (∃ b, b < Nbins ∧ nexp Ntimes tau (edges b) (edges (b + 1)) = 0 ∧
          0 < counts b) →
        bllhEval Ntimes edges counts Nbins tau = FP.inf) ∧
    bllhTerm 0 0 = FP.val 0 := by
  have hterm_pos : ∀ (k : ℕ) (mu : ℝ), 0 < mu →
      bllhTerm k mu
        = FP.val (-2 * Real.log (mu ^ k * Real.exp (-mu) / Nat.factorial k)) := by
    intro k mu hmu
    have h1 : ¬(mu < 0) := not_lt.mpr hmu.le
    have hp : 0 < mu ^ k * Real.exp (-mu) / (Nat.factorial k : ℝ) :=
      div_pos (mul_pos (pow_pos hmu k) (Real.exp_pos _))
        (by exact_mod_cast Nat.factorial_pos k)
    simp only [bllhTerm, poissonPmf, if_neg h1]
    rw [if_neg (not_le.mpr hp)]
  have hterm_nan : ∀ (k : ℕ) (mu : ℝ), mu < 0 → bllhTerm k mu = FP.nan := by
    intro k mu hmu
    simp only [bllhTerm, poissonPmf, if_pos hmu]
  have hterm_inf : ∀ k : ℕ, 0 < k → bllhTerm k 0 = FP.inf := by
    intro k hk
    have h1 : ¬((0 : ℝ) < 0) := lt_irrefl 0
    have hz : (0 : ℝ) ^ k * Real.exp (-0) / (Nat.factorial k : ℝ) = 0 := by
      rw [zero_pow (by omega : k ≠ 0)]
      ring
    simp only [bllhTerm, poissonPmf, if_neg h1]
    rw [hz]
    norm_num
  have hterm00 : bllhTerm 0 0 = FP.val 0 := by
    have h1 : ¬((0 : ℝ) < 0) := lt_irrefl 0
    simp only [bllhTerm, poissonPmf, if_neg h1]
    norm_num [Real.log_one]
  have hterm_ne_nan : ∀ (k : ℕ) (mu : ℝ), 0 ≤ mu → bllhTerm k mu ≠ FP.nan := by
    intro k mu hmu
    rcases lt_or_eq_of_le hmu with h | h
    · rw [hterm_pos k mu h]
      simp
    · rcases Nat.eq_zero_or_pos k with hk | hk
      · rw [hk, ← h, hterm00]
        simp
      · rw [← h, hterm_inf k hk]
        simp
  refine ⟨?_, ?_, ?_, hterm00⟩
  · intro hpos
    have hmap : (List.range Nbins).map (fun ibin =>
          bllhTerm (counts ibin) (nexp Ntimes tau (edges ibin) (edges (ibin + 1))))
        = (List.range Nbins).map (fun b =>
            FP.val (-2 * Real.log (nexp Ntimes tau (edges b) (edges (b + 1)) ^ counts b
              * Real.exp (-nexp Ntimes tau (edges b) (edges (b + 1)))
              / Nat.factorial (counts b)))) :=
      List.map_congr_left (fun b hb =>
        hterm_pos (counts b) _ (hpos b (List.mem_range.mp hb)))
    rw [bllhEval, hmap, FP.foldl_add_map_val, zero_add]
  · rintro ⟨b, hb, hneg⟩
    rw [bllhEval]
    exact FP.foldl_add_nan_mem _ _ (List.mem_map.mpr
      ⟨b, List.mem_range.mpr hb, hterm_nan (counts b) _ hneg⟩)
  · intro hnonneg
    rintro ⟨b, hb, hzero, hcount⟩
    rw [bllhEval]
    refine FP.foldl_add_inf_mem _ _ ?_ (by simp) ?_
    · intro hmem
      obtain ⟨a, ha, hfa⟩ := List.mem_map.mp hmem
      exact hterm_ne_nan (counts a) _ (hnonneg a (List.mem_range.mp ha)) hfa
    · exact List.mem_map.mpr ⟨b, List.mem_range.mpr hb, by
        rw [hzero]
        exact hterm_inf (counts b) hcount⟩

/-- Counterexample for C4 as stated: the empty observation set (`Ntimes = 0`)
over one bin with `nobs = 0` has `nexp = 0 ≤ 0`, yet the evaluator returns
the valid finite score `0` (since `pmf(0, 0) = 1`), not an invalid/NaN one. -/
theorem bllh_evaluator_counterexample :
    bllhEval 0 (fun i => (i : ℝ)) (fun _ => 0) 1 1 = FP.val 0 ∧
    nexp 0 1 0 1 = 0 ∧ FP.val 0 ≠ FP.nan ∧ FP.val 0 ≠ FP.inf := by
  refine ⟨?_, by norm_num [nexp], by simp, by simp⟩
  norm_num [bllhEval, List.range_succ, List.range_zero, bllhTerm, poissonPmf,
    nexp, FP.add, Real.log_one]

/-- Witness for C4's amended theorem: a negative expected count (obtained at
a negative hypothesis lifetime) makes the score NaN. -/
theorem bllh_evaluator_witness :
    bllhEval 1 (fun i => (i : ℝ)) (fun _ => 0) 1 (-1) = FP.nan :=
  (bllh_evaluator 1 (fun i => (i : ℝ)) (fun _ => 0) 1 (-1)).2.1
    ⟨0, by norm_num, by norm_num [nexp]⟩

end AppStat

end
